import Mathlib

/-!
Shallow embedding of the 1-D Reduction-to-Pole core (`src/common.py`) and
proofs of the spec's claims about it.

The Python code works on NumPy float arrays; the embedding idealises the
floating-point arithmetic as exact real/complex arithmetic, which is the
standard reading of the numerical formulas in the code.  Machine-specific
remarks (where double precision provably agrees with the exact model on the
inputs that matter) are given at the definitions concerned.
-/

namespace RTP

/-- Embedding of `np.deg2rad`: degrees to radians. -/
noncomputable def deg2rad (x : ℝ) : ℝ := x * (Real.pi / 180)

/-- Component `Fx = np.cos(I0) * np.cos(D0)` with `I0 = deg2rad inc`, `D0 = deg2rad dec`. -/
noncomputable def fieldFx (inc dec : ℝ) : ℝ :=
  Real.cos (deg2rad inc) * Real.cos (deg2rad dec)

/-- Component `Fy = np.cos(I0) * np.sin(D0)`. -/
noncomputable def fieldFy (inc dec : ℝ) : ℝ :=
  Real.cos (deg2rad inc) * Real.sin (deg2rad dec)

/-- Component `Fz = np.sin(I0)`. -/
noncomputable def fieldFz (inc : ℝ) : ℝ := Real.sin (deg2rad inc)

/-- Direction cosine `kx = np.cos(theta)` with `theta = deg2rad azimuth`. -/
noncomputable def profileKx (azimuth : ℝ) : ℝ := Real.cos (deg2rad azimuth)

/-- Direction cosine `ky = np.sin(theta)`. -/
noncomputable def profileKy (azimuth : ℝ) : ℝ := Real.sin (deg2rad azimuth)

/-- The horizontal projection `Fx*kx + Fy*ky` appearing in the operator
denominator of `rtp_1d`. -/
noncomputable def horizProj (inc dec azimuth : ℝ) : ℝ :=
  fieldFx inc dec * profileKx azimuth + fieldFy inc dec * profileKy azimuth

/-- Denominator `denom = Fx*kx + Fy*ky + 1j*Fz*sign` from the loop body of `rtp_1d`
(`np.sign` on a nonzero float is `±1.0`, matching `Real.sign`). -/
noncomputable def rtpDenom (inc dec azimuth k : ℝ) : ℂ :=
  (horizProj inc dec azimuth : ℝ) + Complex.I * (fieldFz inc : ℝ) * (Real.sign k : ℝ)

/-- One entry of the operator array of `rtp_1d`: `1.0` at zero wavenumber,
`Fz / denom` otherwise. -/
noncomputable def rtpOp (inc dec azimuth k : ℝ) : ℂ :=
  if k = 0 then 1 else (fieldFz inc : ℝ) / rtpDenom inc dec azimuth k

/-- The operator array `op` of `rtp_1d`: `rtpOp` applied entrywise to the
wavenumber array. -/
noncomputable def operatorArray (inc dec azimuth : ℝ) (ks : List ℝ) : List ℂ :=
  ks.map (rtpOp inc dec azimuth)

/-- Embedding of `np.hanning m`: empty for `m = 0`, `[1]` for `m = 1`, and
`0.5 - 0.5*cos(2*pi*i/(m-1))` for `i = 0, ..., m-1` otherwise. -/
noncomputable def hanning (m : ℕ) : List ℝ :=
  if m = 1 then [1]
  else (List.range m).map fun i : ℕ =>
    1 / 2 - 1 / 2 * Real.cos (2 * Real.pi * (i : ℝ) / ((m : ℝ) - 1))

/-- Count `int(alpha * (n - 1))` of `tukey_window` (Python `int` truncates toward
zero; for `alpha ≥ 0`, `n ≥ 1` that is the floor). -/
def taperCount (n : ℕ) (alpha : ℚ) : ℕ := (Int.floor (alpha * ((n : ℚ) - 1))).toNat

/-- Embedding of `tukey_window n alpha` from `src/common.py`:
`hanning(m)[:m//2] + [1.0]*(n-m) + hanning(m)[m//2:]` with
`m = int(alpha*(n-1))`.  Python's float floor-division by 2 agrees with
natural division `m / 2` here, and a negative repetition count yields the
empty list just as truncated subtraction `n - m` does. -/
noncomputable def tukey_window (n : ℕ) (alpha : ℚ) : List ℝ :=
  (hanning (taperCount n alpha)).take (taperCount n alpha / 2) ++
    List.replicate (n - taperCount n alpha) 1 ++
    (hanning (taperCount n alpha)).drop (taperCount n alpha / 2)

/-- Degree-1 least squares fit `np.polyfit(x, y, 1)`, returned as
`(slope, intercept)`.  In exact arithmetic the least-squares solution is
given by the normal equations below (NumPy computes the same minimiser via
`lstsq`); when the design matrix is rank deficient the formulas below are the
divide-by-zero totalisation of that solution. -/
noncomputable def polyfit1 (x y : List ℝ) : ℝ × ℝ :=
  let n : ℝ := x.length
  let sx := x.sum
  let sy := y.sum
  let sxx := (x.map fun t => t * t).sum
  let sxy := (List.zipWith (fun a b => a * b) x y).sum
  let a := (n * sxy - sx * sy) / (n * sxx - sx * sx)
  (a, (sy - a * sx) / n)

/-- The detrending step of `rtp_1d`:
`anomaly - np.polyval(np.polyfit(distance, anomaly, 1), distance)`. -/
noncomputable def detrend (distance anomaly : List ℝ) : List ℝ :=
  let p := polyfit1 distance anomaly
  List.zipWith (fun d a => a - (p.1 * d + p.2)) distance anomaly

/-- The padded transform length `2 ** int(np.ceil(np.log2(n * 2)))` of
`rtp_1d`.  For `n ≥ 1` the double-precision `ceil(log2(2n))` equals
`Nat.clog 2 (2n)` exactly (`log2` of these arguments is far from crossing an
integer except at exact powers of two, where it is exact). -/
def padLen (n : ℕ) : ℕ := 2 ^ Nat.clog 2 (2 * n)

/-- Zero padding of `np.fft.fft(x, n=M)`: extend with zeros (or truncate) to
length `M`. -/
def padTo (M : ℕ) (x : List ℂ) : List ℂ :=
  (x ++ List.replicate (M - x.length) 0).take M

/-- Forward DFT `np.fft.fft`: entry `j` is `∑ t, x t * exp(-2πi·j·t/N)`. -/
noncomputable def dft (x : List ℂ) : List ℂ :=
  (List.range x.length).map fun j : ℕ =>
    ∑ t ∈ Finset.range x.length,
      x.getD t 0 * Complex.exp (-(2 * Real.pi * Complex.I * (j : ℂ) * (t : ℂ)) / (x.length : ℂ))

/-- Inverse DFT `np.fft.ifft`: entry `j` is `(1/N) ∑ t, x t * exp(2πi·j·t/N)`. -/
noncomputable def idft (x : List ℂ) : List ℂ :=
  (List.range x.length).map fun j : ℕ =>
    (∑ t ∈ Finset.range x.length,
      x.getD t 0 * Complex.exp ((2 * Real.pi * Complex.I * (j : ℂ) * (t : ℂ)) / (x.length : ℂ))) /
      (x.length : ℂ)

/-- Embedding of `np.fft.fftfreq M d`: frequencies `i/(M*d)` for `i < ⌈M/2⌉`, then the
negative fold `(i-M)/(M*d)`. -/
noncomputable def fftfreq (M : ℕ) (d : ℝ) : List ℝ :=
  (List.range M).map fun i : ℕ =>
    (if i < (M + 1) / 2 then (i : ℝ) else (i : ℝ) - (M : ℝ)) / ((M : ℝ) * d)

/-- The wavenumber array of `rtp_1d`: `np.fft.fftfreq(len(spec), d=dx) * 2 * np.pi`. -/
noncomputable def wavenumbers (M : ℕ) (dx : ℝ) : List ℝ :=
  (fftfreq M dx).map fun f => f * (2 * Real.pi)

/-- The full pipeline `rtp_1d` of `src/common.py`: detrend, taper with
`tukey_window(n, alpha=0.1)`, zero-padded FFT, per-wavenumber operator,
inverse FFT, real part, truncate to `n`. -/
noncomputable def rtp_1d (distance anomaly : List ℝ) (dx inc dec azimuth : ℝ) : List ℝ :=
  let n := anomaly.length
  let detr := detrend distance anomaly
  let win := tukey_window n (1 / 10)
  let tapered := List.zipWith (fun a w => a * w) detr win
  let M := padLen n
  let sp := dft (padTo M (tapered.map Complex.ofReal))
  let op := operatorArray inc dec azimuth (wavenumbers M dx)
  let spRtp := List.zipWith (fun s o => s * o) sp op
  ((idft spRtp).map Complex.re).take n

/-! ## Basic structural lemmas -/

theorem hanning_length (m : ℕ) : (hanning m).length = m := by
  unfold hanning
  split
  · simp [*]
  · rw [List.length_map, List.length_range]

theorem taperCount_le (n : ℕ) (alpha : ℚ) (h0 : 0 ≤ alpha) (h1 : alpha ≤ 1) :
    taperCount n alpha ≤ n := by
  unfold taperCount
  rcases Nat.eq_zero_or_pos n with hn | hn
  · subst hn
    have h0' : alpha * ((0 : ℚ) - 1) ≤ 0 := by nlinarith
    have h2 : (Int.floor (alpha * (((0 : ℕ) : ℚ) - 1))) ≤ 0 := by
      exact_mod_cast Int.floor_nonpos (by exact_mod_cast h0')
    omega
  · have hle : alpha * ((n : ℚ) - 1) ≤ (n : ℚ) - 1 := by
      have h3 : (0:ℚ) ≤ (n : ℚ) - 1 := by
        have h4 : (1:ℚ) ≤ (n : ℚ) := by exact_mod_cast hn
        linarith
      nlinarith
    have h2 : Int.floor (alpha * ((n : ℚ) - 1)) ≤ Int.floor ((n : ℚ) - 1) :=
      Int.floor_le_floor hle
    have h3 : Int.floor ((n : ℚ) - 1) = (n : ℤ) - 1 := by
      rw [show ((n : ℚ) - 1) = (((n : ℤ) - 1 : ℤ) : ℚ) by push_cast; ring, Int.floor_intCast]
    omega

theorem taperCount_tenth (n : ℕ) (h1 : 1 ≤ n) : taperCount n (1 / 10) = (n - 1) / 10 := by
  unfold taperCount
  have hc : (1 / 10 : ℚ) * ((n : ℚ) - 1) = ((n - 1 : ℕ) : ℤ) / ((10 : ℕ) : ℚ) := by
    have h2 : ((n - 1 : ℕ) : ℚ) = (n : ℚ) - 1 := by
      push_cast [Nat.cast_sub h1]
      ring
    push_cast
    rw [show (((n:ℕ) - 1 : ℕ) : ℚ) = (n : ℚ) - 1 from h2]
    ring
  rw [hc, Rat.floor_intCast_div_natCast]
  omega

theorem tukey_window_length (n : ℕ) (alpha : ℚ) (h : taperCount n alpha ≤ n) :
    (tukey_window n alpha).length = n := by
  unfold tukey_window
  simp only [List.length_append, List.length_take, List.length_replicate, List.length_drop,
    hanning_length]
  omega

/-! ## Claim theorems: padding (C6) and the no-taper regime (C10) -/

/-- C6: for every anomaly length `n ≥ 2` the padded transform length
`padLen n = 2 ^ ⌈log₂ (2n)⌉` used by `rtp_1d` is a power of two, is at least
`2n`, and is the smallest power of two that is at least `2n`. -/
theorem padLen_smallest_pow_two (n : ℕ) (_hn : 2 ≤ n) :
    (∃ e, padLen n = 2 ^ e) ∧ 2 * n ≤ padLen n ∧ ∀ e, 2 * n ≤ 2 ^ e → padLen n ≤ 2 ^ e := by
  refine ⟨⟨Nat.clog 2 (2 * n), rfl⟩, Nat.le_pow_clog one_lt_two _, fun e he => ?_⟩
  exact Nat.pow_le_pow_right (by norm_num) ((Nat.le_pow_iff_clog_le one_lt_two).mp he)

theorem padLen_smallest_pow_two_witness :
    2 ≤ 3 ∧ ((∃ e, padLen 3 = 2 ^ e) ∧ 2 * 3 ≤ padLen 3 ∧
      ∀ e, 2 * 3 ≤ 2 ^ e → padLen 3 ≤ 2 ^ e) :=
  ⟨by decide, padLen_smallest_pow_two 3 (by decide)⟩

/-- C10: for every `2 ≤ n ≤ 20`, `tukey_window n (1/10)` (the taper `rtp_1d`
hardcodes) is the all-ones sequence, because `int(0.1*(n-1)) ≤ 1`: `rtp_1d`
applies no edge tapering at all to profiles of 20 or fewer samples. -/
theorem tukey_window_all_ones_small_n (n : ℕ) (h2 : 2 ≤ n) (h20 : n ≤ 20) :
    tukey_window n (1 / 10) = List.replicate n (1 : ℝ) := by
  have hm : taperCount n (1 / 10) = (n - 1) / 10 := taperCount_tenth n (by omega)
  have hm1 : taperCount n (1 / 10) = 0 ∨ taperCount n (1 / 10) = 1 := by omega
  unfold tukey_window
  rcases hm1 with h | h
  · rw [h]
    simp [hanning]
  · rw [h]
    have hh : hanning 1 = [1] := by simp [hanning]
    rw [hh]
    simp only [List.take_zero, List.drop_zero, List.nil_append,
      show (1 : ℕ) / 2 = 0 from rfl]
    have h3 : List.replicate (n - 1) (1:ℝ) ++ [1] =
        List.replicate (n - 1) (1:ℝ) ++ List.replicate 1 1 := by simp
    rw [h3, ← List.replicate_add]
    congr 1
    omega

theorem tukey_window_all_ones_small_n_witness :
    2 ≤ 7 ∧ 7 ≤ 20 ∧ tukey_window 7 (1 / 10) = List.replicate 7 (1 : ℝ) :=
  ⟨by decide, by decide, tukey_window_all_ones_small_n 7 (by decide) (by decide)⟩

/-! ## Claim theorems: the operator formula (C1) and its magnitude bound (C2) -/

/-- C1: every entry of the operator array built by `rtp_1d` equals `1 + 0j`
at zero wavenumber and `Fz / (Fx*kx + Fy*ky + j*Fz*sign k)` at nonzero
wavenumber, where `Fx, Fy, Fz, kx, ky` come from the degree-to-radian
converted inclination, declination and azimuth. -/
theorem operatorArray_matches_spec_formula (inc dec azimuth : ℝ) (ks : List ℝ) (i : ℕ)
    (hi : i < ks.length) :
    (operatorArray inc dec azimuth ks).getD i 0 =
      if ks.getD i 0 = 0 then 1
      else ((fieldFz inc : ℝ) : ℂ) /
        (((fieldFx inc dec * profileKx azimuth + fieldFy inc dec * profileKy azimuth : ℝ) : ℂ) +
          Complex.I * ((fieldFz inc : ℝ) : ℂ) * ((Real.sign (ks.getD i 0) : ℝ) : ℂ)) := by
  have hlen : i < (ks.map (rtpOp inc dec azimuth)).length := by
    rw [List.length_map]
    exact hi
  rw [operatorArray, List.getD_eq_getElem _ _ hlen, List.getElem_map,
    ← List.getD_eq_getElem ks 0 hi]
  simp only [rtpOp, rtpDenom, horizProj]

theorem operatorArray_matches_spec_formula_witness :
    1 < ([(0 : ℝ), 1]).length ∧
      ((operatorArray 30 10 5 [(0 : ℝ), 1]).getD 1 0 =
        if ([(0 : ℝ), 1]).getD 1 0 = 0 then 1
        else ((fieldFz 30 : ℝ) : ℂ) /
          (((fieldFx 30 10 * profileKx 5 + fieldFy 30 10 * profileKy 5 : ℝ) : ℂ) +
            Complex.I * ((fieldFz 30 : ℝ) : ℂ) *
              ((Real.sign (([(0 : ℝ), 1]).getD 1 0) : ℝ) : ℂ))) :=
  ⟨by norm_num, operatorArray_matches_spec_formula 30 10 5 [0, 1] 1 (by norm_num)⟩

/-- Magnitude of `F / (A + i·F·s)` for real `A F s` with `s² = 1`: it is
`|F| / sqrt (A² + F²)`, at most `1`, and equal to `1` exactly when `A = 0`. -/
theorem abs_ratio_core (A F s : ℝ) (hs2 : s ^ 2 = 1)
    (hd : (A : ℂ) + Complex.I * (F : ℂ) * (s : ℂ) ≠ 0) :
    Complex.abs ((F : ℂ) / ((A : ℂ) + Complex.I * (F : ℂ) * (s : ℂ))) ≤ 1 ∧
      (Complex.abs ((F : ℂ) / ((A : ℂ) + Complex.I * (F : ℂ) * (s : ℂ))) = 1 ↔ A = 0) := by
  have hD : (A : ℂ) + Complex.I * (F : ℂ) * (s : ℂ) = (A : ℂ) + ((F * s : ℝ) : ℂ) * Complex.I := by
    push_cast
    ring
  have habsD : Complex.abs ((A : ℂ) + Complex.I * (F : ℂ) * (s : ℂ)) =
      Real.sqrt (A ^ 2 + F ^ 2) := by
    rw [hD, Complex.abs_add_mul_I]
    congr 1
    have h1 : (F * s) ^ 2 = F ^ 2 * s ^ 2 := by ring
    rw [h1, hs2, mul_one]
  have hAF : ¬(A = 0 ∧ F = 0) := by
    rintro ⟨hA0, hF0⟩
    apply hd
    rw [hA0, hF0]
    push_cast
    ring
  have hpos : 0 < A ^ 2 + F ^ 2 := by
    rcases Classical.em (A = 0) with hA | hA
    · have hF : F ≠ 0 := fun hF0 => hAF ⟨hA, hF0⟩
      have h2 : 0 < F * F := mul_self_pos.mpr hF
      nlinarith [sq_nonneg A]
    · have h2 : 0 < A * A := mul_self_pos.mpr hA
      nlinarith [sq_nonneg F]
  have hsqrt_pos : 0 < Real.sqrt (A ^ 2 + F ^ 2) := Real.sqrt_pos.mpr hpos
  have habs : Complex.abs ((F : ℂ) / ((A : ℂ) + Complex.I * (F : ℂ) * (s : ℂ))) =
      |F| / Real.sqrt (A ^ 2 + F ^ 2) := by
    rw [map_div₀, habsD, Complex.abs_ofReal]
  have hle : |F| ≤ Real.sqrt (A ^ 2 + F ^ 2) := by
    rw [show |F| = Real.sqrt (F ^ 2) from (Real.sqrt_sq_eq_abs F).symm]
    exact Real.sqrt_le_sqrt (by nlinarith [sq_nonneg A])
  constructor
  · rw [habs]
    exact (div_le_one hsqrt_pos).mpr hle
  · rw [habs, div_eq_one_iff_eq (ne_of_gt hsqrt_pos)]
    constructor
    · intro h
      have h2 : F ^ 2 = A ^ 2 + F ^ 2 := by
        have := congrArg (fun t => t ^ 2) h
        simpa [sq_abs, Real.sq_sqrt hpos.le] using this
      have hA2 : A ^ 2 = 0 := by linarith
      exact pow_eq_zero_iff (by norm_num) |>.mp hA2
    · intro hA
      rw [hA]
      rw [show (0:ℝ) ^ 2 + F ^ 2 = F ^ 2 by ring, Real.sqrt_sq_eq_abs]

/-- C2: for every field geometry and every nonzero wavenumber at which the
operator denominator is nonzero, the magnitude of the operator entry is at
most `1`, with equality exactly when `Fx*kx + Fy*ky = 0`. -/
theorem rtpOp_abs_le_one_iff (inc dec azimuth k : ℝ) (hk : k ≠ 0)
    (hd : rtpDenom inc dec azimuth k ≠ 0) :
    Complex.abs (rtpOp inc dec azimuth k) ≤ 1 ∧
      (Complex.abs (rtpOp inc dec azimuth k) = 1 ↔ horizProj inc dec azimuth = 0) := by
  have hs2 : Real.sign k ^ 2 = 1 := by
    rcases lt_or_gt_of_ne hk with h | h
    · rw [Real.sign_of_neg h]
      norm_num
    · rw [Real.sign_of_pos h]
      norm_num
  have hop : rtpOp inc dec azimuth k =
      ((fieldFz inc : ℝ) : ℂ) / (((horizProj inc dec azimuth : ℝ) : ℂ) +
        Complex.I * ((fieldFz inc : ℝ) : ℂ) * ((Real.sign k : ℝ) : ℂ)) := by
    rw [rtpOp, if_neg hk, rtpDenom]
  have hd2 : ((horizProj inc dec azimuth : ℝ) : ℂ) +
      Complex.I * ((fieldFz inc : ℝ) : ℂ) * ((Real.sign k : ℝ) : ℂ) ≠ 0 := by
    rw [rtpDenom] at hd
    exact hd
  rw [hop]
  exact abs_ratio_core (horizProj inc dec azimuth) (fieldFz inc) (Real.sign k) hs2 hd2

theorem rtpOp_abs_le_one_iff_witness :
    (1 : ℝ) ≠ 0 ∧ rtpDenom 90 0 0 1 ≠ 0 ∧
      (Complex.abs (rtpOp 90 0 0 1) ≤ 1 ∧
        (Complex.abs (rtpOp 90 0 0 1) = 1 ↔ horizProj 90 0 0 = 0)) := by
  have h90 : deg2rad 90 = Real.pi / 2 := by
    rw [deg2rad]
    ring
  have h0 : deg2rad 0 = 0 := by
    rw [deg2rad]
    ring
  have hden : rtpDenom 90 0 0 1 = Complex.I := by
    simp [rtpDenom, horizProj, fieldFx, fieldFy, fieldFz, profileKx, profileKy, h90, h0,
      Real.cos_pi_div_two, Real.sin_pi_div_two, Real.sign_one]
  have hd : rtpDenom 90 0 0 1 ≠ 0 := by
    rw [hden]
    exact Complex.I_ne_zero
  exact ⟨one_ne_zero, hd, rtpOp_abs_le_one_iff 90 0 0 1 one_ne_zero hd⟩

/-! ## Length lemmas for the pipeline -/

theorem padTo_length (M : ℕ) (x : List ℂ) : (padTo M x).length = M := by
  unfold padTo
  rw [List.length_take, List.length_append, List.length_replicate]
  omega

theorem dft_length (x : List ℂ) : (dft x).length = x.length := by
  unfold dft
  rw [List.length_map, List.length_range]

theorem idft_length (x : List ℂ) : (idft x).length = x.length := by
  unfold idft
  rw [List.length_map, List.length_range]

theorem fftfreq_length (M : ℕ) (d : ℝ) : (fftfreq M d).length = M := by
  unfold fftfreq
  rw [List.length_map, List.length_range]

theorem wavenumbers_length (M : ℕ) (dx : ℝ) : (wavenumbers M dx).length = M := by
  unfold wavenumbers
  rw [List.length_map, fftfreq_length]

theorem operatorArray_length (inc dec azimuth : ℝ) (ks : List ℝ) :
    (operatorArray inc dec azimuth ks).length = ks.length := by
  unfold operatorArray
  rw [List.length_map]

theorem detrend_length (x y : List ℝ) :
    (detrend x y).length = min x.length y.length := by
  unfold detrend
  rw [List.length_zipWith]

theorem n_le_padLen (n : ℕ) : n ≤ padLen n := by
  have h := Nat.le_pow_clog one_lt_two (2 * n)
  unfold padLen
  omega

theorem tukey_tenth_length (n : ℕ) : (tukey_window n (1 / 10)).length = n :=
  tukey_window_length n (1 / 10) (taperCount_le n (1 / 10) (by norm_num) (by norm_num))

theorem rtp_1d_length (distance anomaly : List ℝ) (dx inc dec azimuth : ℝ) :
    (rtp_1d distance anomaly dx inc dec azimuth).length = anomaly.length := by
  simp only [rtp_1d]
  rw [List.length_take, List.length_map, idft_length, List.length_zipWith, dft_length,
    padTo_length, operatorArray_length, wavenumbers_length, min_self]
  exact Nat.min_eq_left (n_le_padLen _)

/-! ## Claim theorems: output length (C5) and absence of validation (C3) -/

/-- C5: for every input with distance and anomaly of equal length, the
sequence returned by `rtp_1d` has length exactly `n = len(anomaly)`: the
padding tail is discarded after the inverse transform. -/
theorem rtp_1d_length_eq (distance anomaly : List ℝ) (dx inc dec azimuth : ℝ)
    (_h : distance.length = anomaly.length) (_hn : 2 ≤ anomaly.length) (_hdx : 0 < dx) :
    (rtp_1d distance anomaly dx inc dec azimuth).length = anomaly.length :=
  rtp_1d_length distance anomaly dx inc dec azimuth

theorem rtp_1d_length_eq_witness :
    ([(0:ℝ), 1]).length = ([(5:ℝ), 7]).length ∧ 2 ≤ ([(5:ℝ), 7]).length ∧ (0:ℝ) < 1 ∧
      (rtp_1d [0, 1] [5, 7] 1 30 10 5).length = ([(5:ℝ), 7]).length :=
  ⟨rfl, by norm_num, by norm_num,
    rtp_1d_length_eq [0, 1] [5, 7] 1 30 10 5 rfl (by norm_num) (by norm_num)⟩

/-- C3: `rtp_1d` performs no input validation.  At the concrete invalid input
`dx = -1 ≤ 0` and `inclination = 100 ∉ [-90, 90]` it still returns a
length-`n` result instead of failing: no `ValidationError` (or any other
error path) exists in the code. -/
theorem rtp_1d_no_validation_returns_result :
    (-1 : ℝ) ≤ 0 ∧ 90 < (100 : ℝ) ∧
      (rtp_1d [0, 1] [0, 1] (-1) 100 0 0).length = 2 := by
  refine ⟨by norm_num, by norm_num, ?_⟩
  rw [rtp_1d_length [0, 1] [0, 1] (-1) 100 0 0]
  rfl

/-! ## Zero propagation through the pipeline -/

theorem getD_replicate {α : Type} (r n : ℕ) (d : α) :
    (List.replicate r d).getD n d = d := by
  induction r generalizing n with
  | zero => simp
  | succ r ih =>
    cases n with
    | zero => simp [List.replicate_succ]
    | succ n => simp [List.replicate_succ, ih]

theorem dft_replicate_zero (M : ℕ) : dft (List.replicate M (0 : ℂ)) = List.replicate M 0 := by
  unfold dft
  rw [List.length_replicate]
  refine List.eq_replicate_iff.mpr ⟨by rw [List.length_map, List.length_range], ?_⟩
  intro b hb
  rw [List.mem_map] at hb
  obtain ⟨j, _hj, rfl⟩ := hb
  exact Finset.sum_eq_zero fun t _ht => by rw [getD_replicate, zero_mul]

theorem idft_replicate_zero (M : ℕ) : idft (List.replicate M (0 : ℂ)) = List.replicate M 0 := by
  unfold idft
  rw [List.length_replicate]
  refine List.eq_replicate_iff.mpr ⟨by rw [List.length_map, List.length_range], ?_⟩
  intro b hb
  rw [List.mem_map] at hb
  obtain ⟨j, _hj, rfl⟩ := hb
  rw [Finset.sum_eq_zero fun t _ht => by rw [getD_replicate, zero_mul], zero_div]

theorem zipWith_mul_replicate_zero {α : Type} [MulZeroClass α] (n : ℕ) (l : List α) :
    List.zipWith (fun a b => a * b) (List.replicate n (0 : α)) l =
      List.replicate (min n l.length) 0 := by
  induction n generalizing l with
  | zero => simp
  | succ n ih =>
    cases l with
    | nil => simp
    | cons b bs =>
      simp only [List.replicate_succ, List.zipWith_cons_cons, ih, zero_mul, List.length_cons]
      rw [Nat.succ_min_succ, List.replicate_succ]

theorem padTo_replicate_zero (M n : ℕ) (h : n ≤ M) :
    padTo M (List.replicate n (0 : ℂ)) = List.replicate M 0 := by
  unfold padTo
  rw [List.length_replicate, ← List.replicate_add,
    show n + (M - n) = M from by omega, List.take_replicate, min_self]

theorem rtp_1d_of_detrend_zero (distance anomaly : List ℝ) (dx inc dec azimuth : ℝ)
    (hdet : detrend distance anomaly = List.replicate anomaly.length 0) :
    rtp_1d distance anomaly dx inc dec azimuth = List.replicate anomaly.length 0 := by
  simp only [rtp_1d]
  rw [hdet, zipWith_mul_replicate_zero, tukey_tenth_length, min_self, List.map_replicate,
    Complex.ofReal_zero, padTo_replicate_zero _ _ (n_le_padLen _), dft_replicate_zero,
    zipWith_mul_replicate_zero, operatorArray_length, wavenumbers_length, min_self,
    idft_replicate_zero, List.map_replicate, Complex.zero_re, List.take_replicate,
    min_eq_left (n_le_padLen _)]

/-! ## The degree-1 least-squares fit on degenerate right-hand sides -/

theorem zipWith_replicate_right {α β γ : Type} (f : α → β → γ) (x : List α) (n : ℕ) (c : β) :
    List.zipWith f x (List.replicate n c) = (x.take n).map fun a => f a c := by
  induction x generalizing n with
  | nil => simp
  | cons a as ih =>
    cases n with
    | zero => simp
    | succ n => simp [List.replicate_succ, ih]

theorem sum_map_mul_right (x : List ℝ) (c : ℝ) :
    (x.map fun a => a * c).sum = x.sum * c := by
  induction x with
  | nil => simp
  | cons a as ih =>
    simp only [List.map_cons, List.sum_cons, ih]
    ring

theorem polyfit1_const (distance : List ℝ) (n : ℕ) (c : ℝ)
    (hlen : distance.length = n) (hn : 0 < n) :
    polyfit1 distance (List.replicate n c) = (0, c) := by
  have hsy : (List.replicate n c).sum = (n : ℝ) * c := by
    rw [List.sum_replicate, nsmul_eq_mul]
  have hsxy : (List.zipWith (fun a b => a * b) distance (List.replicate n c)).sum
      = distance.sum * c := by
    rw [zipWith_replicate_right, List.take_of_length_le (by omega), sum_map_mul_right]
  have hne : (n : ℝ) ≠ 0 := Nat.cast_ne_zero.mpr (by omega)
  simp only [polyfit1, hsy, hsxy, hlen]
  have hnum : (n : ℝ) * (distance.sum * c) - distance.sum * ((n : ℝ) * c) = 0 := by ring
  rw [hnum, zero_div, zero_mul, sub_zero, mul_div_cancel_left₀ _ hne]

theorem detrend_const (distance : List ℝ) (n : ℕ) (c : ℝ)
    (hlen : distance.length = n) (hn : 0 < n) :
    detrend distance (List.replicate n c) = List.replicate n 0 := by
  simp only [detrend, polyfit1_const distance n c hlen hn]
  rw [zipWith_replicate_right, List.take_of_length_le (by omega)]
  have h1 : (fun d : ℝ => c - ((0 : ℝ) * d + c)) = fun _ : ℝ => (0 : ℝ) := by
    funext d
    ring
  rw [h1]
  refine List.eq_replicate_iff.mpr ⟨by rw [List.length_map, hlen], ?_⟩
  intro b hb
  rw [List.mem_map] at hb
  obtain ⟨d, _hd, rfl⟩ := hb
  rfl

/-! ## Claim theorem: constant anomaly yields the zero output (C7) -/

/-- C7: for every constant anomaly of length `n ≥ 2` over a strictly
increasing distance profile, any geometry and any `dx > 0`, the least-squares
detrend inside `rtp_1d` is exactly zero and `rtp_1d` returns the all-zeros
sequence. -/
theorem rtp_1d_constant_anomaly_zero (distance : List ℝ) (n : ℕ) (c : ℝ)
    (dx inc dec azimuth : ℝ) (hn : 2 ≤ n) (hlen : distance.length = n)
    (_hmono : distance.Chain' (· < ·)) (_hdx : 0 < dx) :
    detrend distance (List.replicate n c) = List.replicate n 0 ∧
      rtp_1d distance (List.replicate n c) dx inc dec azimuth = List.replicate n 0 := by
  have hdet := detrend_const distance n c hlen (by omega)
  refine ⟨hdet, ?_⟩
  have h := rtp_1d_of_detrend_zero distance (List.replicate n c) dx inc dec azimuth
    (by rw [List.length_replicate]; exact hdet)
  rwa [List.length_replicate] at h

theorem rtp_1d_constant_anomaly_zero_witness :
    2 ≤ 2 ∧ ([(0 : ℝ), 1]).length = 2 ∧ List.Chain' (fun a b : ℝ => a < b) [0, 1] ∧ (0 : ℝ) < 1 ∧
      (detrend [0, 1] (List.replicate 2 (5 : ℝ)) = List.replicate 2 0 ∧
        rtp_1d [0, 1] (List.replicate 2 (5 : ℝ)) 1 30 10 5 = List.replicate 2 0) :=
  ⟨by norm_num, by norm_num, by norm_num [List.chain'_cons, List.chain'_singleton],
    by norm_num,
    rtp_1d_constant_anomaly_zero [0, 1] 2 5 1 30 10 5 (by norm_num) (by norm_num)
      (by norm_num [List.chain'_cons, List.chain'_singleton]) (by norm_num)⟩

theorem detrend_two_points (x0 x1 y0 y1 : ℝ) (hne : x0 ≠ x1) :
    detrend [x0, x1] [y0, y1] = [0, 0] := by
  have hD : (x0 - x1) ^ 2 ≠ 0 := pow_ne_zero 2 (sub_ne_zero.mpr hne)
  simp only [detrend, polyfit1, List.length_cons, List.length_nil, List.sum_cons, List.sum_nil,
    List.map_cons, List.map_nil, List.zipWith_cons_cons, List.zipWith_nil]
  norm_num
  constructor
  · have hd2 : 2 * (x0 * x0 + x1 * x1) - (x0 + x1) * (x0 + x1) = (x0 - x1) ^ 2 := by ring
    rw [hd2]
    field_simp
    ring
  · have hd2 : 2 * (x0 * x0 + x1 * x1) - (x0 + x1) * (x0 + x1) = (x0 - x1) ^ 2 := by ring
    rw [hd2]
    field_simp
    ring

/-- C9: with exactly two samples at distinct distances, any valid geometry
and any `dx > 0`, the degree-1 least-squares fit passes through both points,
the detrended residual is zero, and `rtp_1d` returns `[0, 0]`. -/
theorem rtp_1d_two_samples_zero (x0 x1 y0 y1 dx inc dec azimuth : ℝ)
    (hne : x0 ≠ x1) (_hdx : 0 < dx) :
    detrend [x0, x1] [y0, y1] = [0, 0] ∧
      rtp_1d [x0, x1] [y0, y1] dx inc dec azimuth = [0, 0] := by
  have hdet := detrend_two_points x0 x1 y0 y1 hne
  refine ⟨hdet, ?_⟩
  have h := rtp_1d_of_detrend_zero [x0, x1] [y0, y1] dx inc dec azimuth (by rw [hdet, List.length_cons, List.length_cons, List.length_nil, List.replicate_succ,
      List.replicate_succ, List.replicate_zero])
  rw [h, List.length_cons, List.length_cons, List.length_nil, List.replicate_succ,
    List.replicate_succ, List.replicate_zero]

theorem rtp_1d_two_samples_zero_witness :
    (0 : ℝ) ≠ 1 ∧ (0 : ℝ) < 1 ∧
      (detrend [(0 : ℝ), 1] [3, 4] = [0, 0] ∧
        rtp_1d [(0 : ℝ), 1] [3, 4] 1 30 10 5 = [0, 0]) :=
  ⟨by norm_num, by norm_num,
    rtp_1d_two_samples_zero 0 1 3 4 1 30 10 5 (by norm_num) (by norm_num)⟩

/-- C4: at the degenerate geometry (inclination `0°`, declination `0°`,
azimuth `90°`) the operator denominator of `rtp_1d` is exactly `0` for every
nonzero wavenumber, yet the operator entry is still produced by the division
`Fz / denom` — a division by zero (IEEE floats give NaN there); the code has
no epsilon guard and no `NumericalInstabilityError` path. -/
theorem rtp_degenerate_denom_zero (k : ℝ) (hk : k ≠ 0) :
    rtpDenom 0 0 90 k = 0 ∧ rtpOp 0 0 90 k = ((fieldFz 0 : ℝ) : ℂ) / 0 := by
  have h0 : deg2rad 0 = 0 := by
    rw [deg2rad]
    ring
  have h90 : deg2rad 90 = Real.pi / 2 := by
    rw [deg2rad]
    ring
  have hFz : fieldFz 0 = 0 := by
    rw [fieldFz, h0, Real.sin_zero]
  have hA : horizProj 0 0 90 = 0 := by
    rw [horizProj, fieldFx, fieldFy, profileKx, profileKy, h0, h90]
    simp [Real.cos_pi_div_two, Real.sin_pi_div_two]
  have hden : rtpDenom 0 0 90 k = 0 := by
    rw [rtpDenom, hA, hFz]
    push_cast
    ring
  refine ⟨hden, ?_⟩
  simp only [rtpOp]
  rw [if_neg hk, hden]

theorem rtp_degenerate_denom_zero_witness :
    (1 : ℝ) ≠ 0 ∧
      (rtpDenom 0 0 90 1 = 0 ∧ rtpOp 0 0 90 1 = ((fieldFz 0 : ℝ) : ℂ) / 0) :=
  ⟨one_ne_zero, rtp_degenerate_denom_zero 1 one_ne_zero⟩

/-! ## Entry-level description of the taper window (C8) -/

theorem getD_take_of_lt (l : List ℝ) (k i : ℕ) (hik : i < k) (hil : i < l.length) :
    (l.take k).getD i 0 = l.getD i 0 := by
  have h1 : i < (l.take k).length := by
    rw [List.length_take]
    omega
  rw [List.getD_eq_getElem _ _ h1, List.getD_eq_getElem _ _ hil]
  exact List.getElem_take l

theorem getD_drop (l : List ℝ) (k i : ℕ) (h : k + i < l.length) :
    (l.drop k).getD i 0 = l.getD (k + i) 0 := by
  have h1 : i < (l.drop k).length := by
    rw [List.length_drop]
    omega
  rw [List.getD_eq_getElem _ _ h1, List.getD_eq_getElem _ _ h]
  exact List.getElem_drop l

theorem getD_replicate_lt {α : Type} (k j : ℕ) (a d : α) (h : j < k) :
    (List.replicate k a).getD j d = a := by
  rw [List.getD_eq_getElem _ _ (by rw [List.length_replicate]; exact h)]
  exact List.getElem_replicate a _

theorem hanning_getD (m i : ℕ) (hm : m ≠ 1) (hi : i < m) :
    (hanning m).getD i 0 = 1 / 2 - 1 / 2 * Real.cos (2 * Real.pi * i / ((m : ℝ) - 1)) := by
  unfold hanning
  rw [if_neg hm]
  rw [List.getD_eq_getElem _ _ (by rw [List.length_map, List.length_range]; exact hi)]
  rw [List.getElem_map, List.getElem_range]

/-- C8: for every `n ≥ 2` and taper fraction `0 ≤ alpha ≤ 1` (default `0.1`),
`tukey_window n alpha` has length exactly `n`, equals `1.0` over the central
portion, and follows the rising/falling half-cosine (Hann) profile over the
outer `⌊m/2⌋` samples at the start and `⌈m/2⌉` samples at the end, with
`m = int(alpha*(n-1))` — about `alpha*(n-1)/2` samples at each end; the
profile starts at the small value `0` (the Hann formula at index `0`). -/
theorem tukey_window_shape (n : ℕ) (alpha : ℚ) (hn : 2 ≤ n) (h0 : 0 ≤ alpha) (h1 : alpha ≤ 1) :
    (tukey_window n alpha).length = n ∧
      (∀ i, i < taperCount n alpha / 2 →
        (tukey_window n alpha).getD i 0 =
          1 / 2 - 1 / 2 * Real.cos (2 * Real.pi * i / ((taperCount n alpha : ℝ) - 1))) ∧
      (∀ i, taperCount n alpha / 2 ≤ i →
        i < n - (taperCount n alpha - taperCount n alpha / 2) →
        (tukey_window n alpha).getD i 0 = 1) ∧
      (∀ i, 2 ≤ taperCount n alpha → i < taperCount n alpha - taperCount n alpha / 2 →
        (tukey_window n alpha).getD
            (n - (taperCount n alpha - taperCount n alpha / 2) + i) 0 =
          1 / 2 - 1 / 2 *
            Real.cos (2 * Real.pi * ((taperCount n alpha / 2 + i : ℕ) : ℝ) /
              ((taperCount n alpha : ℝ) - 1))) := by
  have hmn : taperCount n alpha ≤ n := taperCount_le n alpha h0 h1
  have hlenA : ((hanning (taperCount n alpha)).take (taperCount n alpha / 2)).length
      = taperCount n alpha / 2 := by
    rw [List.length_take, hanning_length]
    omega
  refine ⟨tukey_window_length n alpha hmn, ?_, ?_, ?_⟩
  · intro i hi
    have hm2 : 2 ≤ taperCount n alpha := by omega
    unfold tukey_window
    rw [List.getD_append _ _ _ _ (by rw [List.length_append, hlenA]; omega),
      List.getD_append _ _ _ _ (by rw [hlenA]; omega),
      getD_take_of_lt _ _ _ hi (by rw [hanning_length]; omega),
      hanning_getD _ _ (by omega) (by omega)]
  · intro i hlo hhi
    unfold tukey_window
    rw [List.getD_append _ _ _ _
        (by rw [List.length_append, hlenA, List.length_replicate]; omega),
      List.getD_append_right _ _ _ _ (by rw [hlenA]; omega), hlenA,
      getD_replicate_lt _ _ _ _ (by omega)]
  · intro i hm2 hi
    unfold tukey_window
    rw [List.getD_append_right _ _ _ _
        (by rw [List.length_append, hlenA, List.length_replicate]; omega),
      List.length_append, hlenA, List.length_replicate,
      show n - (taperCount n alpha - taperCount n alpha / 2) + i -
          (taperCount n alpha / 2 + (n - taperCount n alpha)) = i from by omega,
      getD_drop _ _ _ (by rw [hanning_length]; omega),
      hanning_getD _ _ (by omega) (by omega)]

theorem tukey_window_shape_witness :
    2 ≤ 25 ∧ (0 : ℚ) ≤ 1 / 10 ∧ (1 / 10 : ℚ) ≤ 1 ∧
      ((tukey_window 25 (1 / 10)).length = 25 ∧
        (∀ i, i < taperCount 25 (1 / 10) / 2 →
          (tukey_window 25 (1 / 10)).getD i 0 =
            1 / 2 - 1 / 2 * Real.cos (2 * Real.pi * i / ((taperCount 25 (1 / 10) : ℝ) - 1))) ∧
        (∀ i, taperCount 25 (1 / 10) / 2 ≤ i →
          i < 25 - (taperCount 25 (1 / 10) - taperCount 25 (1 / 10) / 2) →
          (tukey_window 25 (1 / 10)).getD i 0 = 1) ∧
        (∀ i, 2 ≤ taperCount 25 (1 / 10) →
          i < taperCount 25 (1 / 10) - taperCount 25 (1 / 10) / 2 →
          (tukey_window 25 (1 / 10)).getD
              (25 - (taperCount 25 (1 / 10) - taperCount 25 (1 / 10) / 2) + i) 0 =
            1 / 2 - 1 / 2 *
              Real.cos (2 * Real.pi * ((taperCount 25 (1 / 10) / 2 + i : ℕ) : ℝ) /
                ((taperCount 25 (1 / 10) : ℝ) - 1)))) :=
  ⟨by norm_num, by norm_num, by norm_num,
    tukey_window_shape 25 (1 / 10) (by norm_num) (by norm_num) (by norm_num)⟩

end RTP
